import Mathlib

/-!
Verification of the path-collector utility (`trace/trace_code.py`).

The script walks a directory tree with `os.walk`, filters the visited
directories by a string-prefix test on their path relative to the scan root,
selects files by `fnmatch` glob patterns minus fixed ignore sets, and a driver
writes the two resulting path lists to text files.

The filesystem is embedded as a finite tree (`Dir`): a directory has a name,
a list of file names (in the order the scan enumerates them), a list of
subdirectories, and a readability flag.  `os.walk` passes scandir errors to
its `onerror` callback, which `collect_paths` leaves at the default `None`,
so an unreadable (or missing) directory makes `os.walk` silently skip that
whole subtree; the `readable` flag models exactly this.  POSIX path semantics
are assumed (as on the machine the script targets): `os.path.normcase` is the
identity, `os.linesep` is a newline, `os.path.join` concatenates with a slash,
and `os.path.relpath` of a directory visited by `os.walk(base)` against a
normalized `base` is the slash-joined list of path components below `base`
(`"."` for `base` itself).  Strings are the UTF-8 strings Python hands the
filesystem layer; `str.startswith` is a plain sequence-prefix test.
-/

namespace TraceCode

/-! ### Glob matching (`fnmatch`)

`fnmatch.fnmatch` translates a pattern (`*`, `?`, `[...]`, `[!...]`, other
characters literal) to a regular expression and matches the whole name
against it.  The translation is modelled as a tokenizer (`parsePat`) and the
regular-expression semantics as `matchPat`. -/

/-- Scan the body of a bracketed character class: returns the characters up to
the closing bracket together with the remainder after it, or `none` when the
class is unterminated (in which case `fnmatch` treats the opening bracket as a
literal character). -/
def scanClass : List Char → Option (List Char × List Char)
  | [] => none
  | c :: rest =>
    if c = ']' then some ([], rest)
    else
      match scanClass rest with
      | some (body, r) => some (c :: body, r)
      | none => none

/-- Interpret a character-class body: `a-b` is a range (dropped when reversed,
as `fnmatch.translate` removes empty ranges), any other character stands for
itself, and a dash at the start or end is literal. -/
def classItems : List Char → List (Char × Char)
  | [] => []
  | a :: '-' :: b :: rest => (if a ≤ b then [(a, b)] else []) ++ classItems rest
  | a :: rest => (a, a) :: classItems rest

/-- Membership of a character in an interpreted character class. -/
def inClass (items : List (Char × Char)) (c : Char) : Bool :=
  items.any (fun p => p.1 ≤ c && c ≤ p.2)

/-- Parse a character class after the opening bracket, ignoring a possible
negation mark: a bracket in the first position is a literal member. -/
def parseClassCore (l : List Char) : Option (List (Char × Char) × List Char) :=
  match l with
  | ']' :: t => (scanClass t).map (fun p => (classItems (']' :: p.1), p.2))
  | _ => (scanClass l).map (fun p => (classItems p.1, p.2))

/-- Parse a character class after the opening bracket: a leading exclamation
mark negates the class. -/
def parseClass (l : List Char) : Option (Bool × List (Char × Char) × List Char) :=
  match l with
  | '!' :: t => (parseClassCore t).map (fun p => (true, p.1, p.2))
  | _ => (parseClassCore l).map (fun p => (false, p.1, p.2))

/-- Tokens of a translated glob pattern, mirroring the regular expression
`fnmatch.translate` produces: `.*`, `.` (with DOTALL), a character class, or a
literal (escaped) character. -/
inductive Pat where
  | star
  | anyChar
  | lit (c : Char)
  | cls (neg : Bool) (items : List (Char × Char))

/-- Tokenize a glob pattern.  The recursion consumes at least one pattern
character per step, so pattern length is enough fuel; the fuel-exhausted case
is unreachable for `parsePat`. -/
def parsePatFuel : Nat → List Char → List Pat
  | _, [] => []
  | 0, _ :: _ => []
  | fuel + 1, c :: ps =>
    if c = '*' then .star :: parsePatFuel fuel ps
    else if c = '?' then .anyChar :: parsePatFuel fuel ps
    else if c = '[' then
      match parseClass ps with
      | some (neg, items, rest) => .cls neg items :: parsePatFuel fuel rest
      | none => .lit '[' :: parsePatFuel fuel ps
    else .lit c :: parsePatFuel fuel ps

/-- Tokenize a glob pattern (`fnmatch.translate` up to the regex encoding). -/
def parsePat (l : List Char) : List Pat := parsePatFuel l.length l

/-- Full-string matching of a token list, the semantics of the translated
anchored regular expression: `star` matches any (possibly empty) sequence,
which holds exactly when some tail of the text matches the rest. -/
def matchPat : List Pat → List Char → Bool
  | [], s => s.isEmpty
  | .star :: ps, s => s.tails.any (fun t => matchPat ps t)
  | .anyChar :: ps, s =>
    match s with
    | [] => false
    | _ :: cs => matchPat ps cs
  | .cls neg items :: ps, s =>
    match s with
    | [] => false
    | c :: cs => (if neg then !(inClass items c) else inClass items c) && matchPat ps cs
  | .lit p :: ps, s =>
    match s with
    | [] => false
    | c :: cs => (c == p) && matchPat ps cs

/-- Python `fnmatch.fnmatch(name, pattern)` on a POSIX system (where
`os.path.normcase` is the identity). -/
def fnmatch (name pattern : String) : Bool := matchPat (parsePat pattern.data) name.data

/-- Python `fnmatch.filter(names, pattern)`: keeps, in order, the names
matching the pattern. -/
def fnmatchFilter (names : List String) (pattern : String) : List String :=
  names.filter (fun n => fnmatch n pattern)

/-! ### Path strings -/

/-- Python `str.startswith`: a plain sequence-prefix test on the characters. -/
def strStartsWith (s pre : String) : Bool := pre.data.isPrefixOf s.data

/-- Sequence-suffix test on the characters of a string. -/
def strEndsWith (s suf : String) : Bool := suf.data.isSuffixOf s.data

/-- POSIX `os.path.join` on two components: an absolute second component
replaces the first, and a separator is inserted unless one is already
present. -/
def pathJoin (a b : String) : String :=
  if strStartsWith b "/" then b
  else if a = "" || strEndsWith a "/" then a ++ b
  else a ++ "/" ++ b

/-- The path of a visited directory relative to the scan root, as
`os.path.relpath` yields it for the directory paths `os.walk` constructs
below a normalized base: `"."` for the base itself, otherwise the path
components joined by slashes. -/
def relOf : List String → String
  | [] => "."
  | [c] => c
  | c :: rest => c ++ "/" ++ relOf rest

/-- The on-disk path of a visited directory: the base path joined with each
path component in turn, exactly as `os.walk` builds the `root` strings it
yields. -/
def dirPathOf (base : String) (comps : List String) : String := comps.foldl pathJoin base

/-- Split a character sequence at every occurrence of a separator character
(the chunks between separators, like Python `str.split` on one character). -/
def splitChar (sep : Char) : List Char → List (List Char)
  | [] => [[]]
  | c :: rest =>
    if c = sep then [] :: splitChar sep rest
    else (c :: (splitChar sep rest).headD []) :: (splitChar sep rest).tail

/-! ### The filesystem tree and the fixed configuration tables -/

/-- A directory tree: name, directly contained file names (in scan
enumeration order), subdirectories (in scan enumeration order), and whether
scanning the directory succeeds (`os.scandir` errors are reported to
`os.walk`'s `onerror` callback, which the script leaves at the default
`None`, silently skipping the directory). -/
inductive Dir where
  | mk (name : String) (files : List String) (dirs : List Dir) (readable : Bool)

/-- The name of a directory. -/
def Dir.name : Dir → String
  | .mk n _ _ _ => n

/-- The file names directly inside a directory. -/
def Dir.files : Dir → List String
  | .mk _ fs _ _ => fs

/-- The subdirectories of a directory. -/
def Dir.dirs : Dir → List Dir
  | .mk _ _ ds _ => ds

/-- Whether scanning the directory succeeds. -/
def Dir.readable : Dir → Bool
  | .mk _ _ _ r => r

/-- Directory names never descended into (`IGNORE_DIRS` in the script; a
membership-only table, so a list models the Python set). -/
def IGNORE_DIRS : List String :=
  [".git", ".gitignore", ".next", "node_modules", ".vscode", "docs"]

/-- Exact file names always excluded from results (`IGNORE_FILES`). -/
def IGNORE_FILES : List String :=
  ["package.json", "package-lock.json", "README.md", "components.json",
   "tsconfig.json", "next-env.d.ts", "next.config.ts",
   "postcss.config.mjs", "tailwind.config.ts", ".env", ".modified"]

/-- File patterns for logic (backend/AI/service) files (`LOGIC_PATTERNS`). -/
def LOGIC_PATTERNS : List String := ["*.ts", "*.tsx", "*.js", "*.py"]

/-- Directory prefixes included for the logic-only pass (`LOGIC_DIRS`). -/
def LOGIC_DIRS : List String :=
  ["src/ai", "src/lib", "src/services", "src/middleware", "src/hooks"]

/-- Additional directory prefixes for the logic+style pass (`STYLE_DIRS`). -/
def STYLE_DIRS : List String := ["src/components", "src/app"]

/-! ### The traversal and `collect_paths` -/

mutual
/-- Top-down `os.walk` from a directory whose path components below the scan
root are `comps`, with the `dirs[:] = [d for d in dirs if d not in
IGNORE_DIRS]` pruning `collect_paths` applies before descending: yields the
visited directory (its components and its files) followed by the walks of its
unpruned subdirectories in order.  An unreadable directory yields nothing
(its scandir error goes to the default `onerror=None`). -/
def walkFrom (comps : List String) : Dir → List (List String × List String)
  | .mk _ fs ds r => if r then (comps, fs) :: walkSubdirs comps ds else []

/-- The walks of the subdirectories of a visited directory, skipping those
whose name is in the ignore-directory table. -/
def walkSubdirs (comps : List String) : List Dir → List (List String × List String)
  | [] => []
  | c :: rest =>
    (if IGNORE_DIRS.contains c.name then [] else walkFrom (comps ++ [c.name]) c)
      ++ walkSubdirs comps rest
end

/-- The eligibility test of `collect_paths`: the relative path of the visited
directory starts (as a plain string) with one of the included prefixes. -/
def dirIncluded (dirs_include : List String) (rel : String) : Bool :=
  dirs_include.any (fun d => strStartsWith rel d)

/-- `collect_paths(base_dir, dirs_include, patterns)`: walk the tree, and in
every eligible directory append, for each pattern in order, the
pattern-matching files in enumeration order, skipping ignored file names; each
result is the visited directory's path joined with the file name.  The
directory tree and the base path string are the two aspects of the script's
single `base_dir` argument. -/
def collect_paths (base_dir : Dir) (basePath : String)
    (dirs_include patterns : List String) : List String :=
  (walkFrom [] base_dir).flatMap (fun e =>
    if dirIncluded dirs_include (relOf e.1) then
      patterns.flatMap (fun pattern =>
        (fnmatchFilter e.2 pattern).flatMap (fun filename =>
          if IGNORE_FILES.contains filename then []
          else [pathJoin (dirPathOf basePath e.1) filename]))
    else [])

/-! ### The driver (`main`) -/

/-- `os.linesep` on the POSIX systems the script targets. -/
def os_linesep : String := "\n"

/-- The content written to an output file: each path followed by a line
separator, in order (the concatenation of the `f.write(path + os.linesep)`
calls).  The file is opened with mode `"w"`, so this is the complete final
content regardless of what the file held before. -/
def writeLines : List String → String
  | [] => ""
  | p :: ps => p ++ os_linesep ++ writeLines ps

/-- The observable outcome of one run of `main`: the two output file paths
with their final contents, and the lines printed to standard output. -/
structure RunResult where
  logicPath : String
  logicContent : String
  combinedPath : String
  combinedContent : String
  stdoutLines : List String

/-- The driver `main()`: scans the working directory (given as the tree `cwd`
rooted at path `repo_path`), collects the logic list and the combined list,
writes each to its file under the `trace` output directory, and prints one
confirmation line per file. -/
def main_run (cwd : Dir) (repo_path : String) : RunResult :=
  let output_dir := pathJoin repo_path "trace"
  let logic_files := collect_paths cwd repo_path LOGIC_DIRS LOGIC_PATTERNS
  let logic_output := pathJoin output_dir "logic_files.txt"
  let combined_dirs := LOGIC_DIRS ++ STYLE_DIRS
  let all_files := collect_paths cwd repo_path combined_dirs LOGIC_PATTERNS
  let combined_output := pathJoin output_dir "logic_style_files.txt"
  { logicPath := logic_output
    logicContent := writeLines logic_files
    combinedPath := combined_output
    combinedContent := writeLines all_files
    stdoutLines := ["Logic file list saved to: " ++ logic_output,
                    "Logic+Style file list saved to: " ++ combined_output] }

/-! ### Auxiliary notions for the statements -/

/-- Plain tree containment: following the named components from a directory
leads to a (sub)directory.  This is the raw data-model notion, independent of
readability and of the traversal's pruning. -/
inductive Reaches : Dir → List String → Dir → Prop where
  | refl (d : Dir) : Reaches d [] d
  | step {d c sub : Dir} {rest : List String} :
      c ∈ d.dirs → Reaches c rest sub → Reaches d (c.name :: rest) sub

/-- The directories the pruned walk actually visits: every directory on the
path is readable, and every component strictly below the start is not an
ignored directory name. -/
inductive WalkReach : Dir → List String → Dir → Prop where
  | here {d : Dir} : d.readable = true → WalkReach d [] d
  | child {d c sub : Dir} {rest : List String} :
      d.readable = true → c ∈ d.dirs → IGNORE_DIRS.contains c.name = false →
      WalkReach c rest sub → WalkReach d (c.name :: rest) sub

mutual
/-- Every directory of the tree is readable (the "readable tree" premise of
the specification). -/
def allReadable : Dir → Bool
  | .mk _ _ ds r => r && allReadableList ds

/-- Every directory of every tree in the list is readable. -/
def allReadableList : List Dir → Bool
  | [] => true
  | c :: rest => allReadable c && allReadableList rest
end

/-- No duplicates in a list of strings (executable form). -/
def nodupStr : List String → Bool
  | [] => true
  | x :: xs => !xs.contains x && nodupStr xs

/-- A well-formed path segment as a real filesystem produces it: a nonempty
name without a path separator. -/
def goodSeg (s : String) : Bool := !s.data.isEmpty && !s.data.contains '/'

mutual
/-- Well-formedness of a tree as a POSIX filesystem guarantees it: within each
directory the file names are distinct well-formed segments and the
subdirectory names are distinct well-formed segments. -/
def wfDir : Dir → Bool
  | .mk _ fs ds _ =>
    nodupStr fs && fs.all goodSeg && nodupStr (ds.map Dir.name)
      && (ds.map Dir.name).all goodSeg && wfDirs ds

/-- Well-formedness of every tree in a list. -/
def wfDirs : List Dir → Bool
  | [] => true
  | c :: rest => wfDir c && wfDirs rest
end

/-- A well-formed scan-root path string: nonempty and without a trailing
separator (as `os.getcwd()` returns it). -/
def goodBase (s : String) : Bool := !s.data.isEmpty && !strEndsWith s "/"

/-- One tagged output entry of `collectTagged`: a selected file (paired with
its index among the matches of its pattern) inside directory number `di`,
selected by pattern number `pi`. -/
def tagFileChunk (basePath : String) (comps : List String) (di pi : Nat)
    (fe : Nat × String) : List ((Nat × Nat × Nat) × String) :=
  if IGNORE_FILES.contains fe.2 then []
  else [((di, pi, fe.1), pathJoin (dirPathOf basePath comps) fe.2)]

/-- The tagged output of one pattern (paired with its index) in one eligible
directory. -/
def tagPatChunk (basePath : String) (comps files : List String) (di : Nat)
    (pe : Nat × String) : List ((Nat × Nat × Nat) × String) :=
  ((fnmatchFilter files pe.2).enum).flatMap (fun fe => tagFileChunk basePath comps di pe.1 fe)

/-- The tagged output of one visited directory (paired with its traversal
index). -/
def tagDirChunk (basePath : String) (dirs_include patterns : List String)
    (de : Nat × (List String × List String)) : List ((Nat × Nat × Nat) × String) :=
  if dirIncluded dirs_include (relOf de.2.1) then
    (patterns.enum).flatMap (fun pe => tagPatChunk basePath de.2.1 de.2.2 de.1 pe)
  else []

/-- The selector applied to one file, as `collect_paths` uses it. -/
def collectFileChunk (basePath : String) (comps : List String) (filename : String) :
    List String :=
  if IGNORE_FILES.contains filename then []
  else [pathJoin (dirPathOf basePath comps) filename]

/-- The output of one pattern in one eligible directory, as `collect_paths`
produces it. -/
def collectPatChunk (basePath : String) (comps files : List String)
    (pattern : String) : List String :=
  (fnmatchFilter files pattern).flatMap (collectFileChunk basePath comps)

/-- The output of one visited directory, as `collect_paths` produces it. -/
def collectDirChunk (basePath : String) (dirs_include patterns : List String)
    (e : List String × List String) : List String :=
  if dirIncluded dirs_include (relOf e.1) then
    patterns.flatMap (collectPatChunk basePath e.1 e.2)
  else []

/-- `collect_paths` with each emitted path tagged by the index of its
directory in traversal order, the index of the pattern that selected it, and
the index of the file among that pattern's matches; used to state the order
of the result sequence. -/
def collectTagged (base_dir : Dir) (basePath : String)
    (dirs_include patterns : List String) : List ((Nat × Nat × Nat) × String) :=
  ((walkFrom [] base_dir).enum).flatMap (fun de => tagDirChunk basePath dirs_include patterns de)

/-- Strict lexicographic order on the (directory, pattern, file) index
triples of `collectTagged`. -/
def tagLt (a b : Nat × Nat × Nat) : Prop :=
  a.1 < b.1 ∨ (a.1 = b.1 ∧ (a.2.1 < b.2.1 ∨ (a.2.1 = b.2.1 ∧ a.2.2 < b.2.2)))

/-- Modelled from the spec's words for comparison (claim C5): a collector
whose within-directory order is the single enumeration order of the
traversal — one pass over the files of each eligible directory, keeping the
selected ones in place.  `collect_paths` itself iterates patterns in the
outer loop instead. -/
def collectEnumOrder (base_dir : Dir) (basePath : String)
    (dirs_include patterns : List String) : List String :=
  (walkFrom [] base_dir).flatMap (fun e =>
    if dirIncluded dirs_include (relOf e.1) then
      (e.2.filter (fun f =>
        patterns.any (fun pat => fnmatch f pat) && !(IGNORE_FILES.contains f))).map
        (fun filename => pathJoin (dirPathOf basePath e.1) filename)
    else [])

/-! ### Concrete trees for witnesses and counterexamples -/

/-- A tree with a single eligible directory `a` holding one file. -/
def exSmall : Dir := Dir.mk "repo" [] [Dir.mk "a" ["f.ts"] [] true] true

/-- A tree with a logic file under `src/ai`. -/
def exLogic : Dir :=
  Dir.mk "repo" [] [Dir.mk "src" [] [Dir.mk "ai" ["a.ts"] [] true] true] true

/-- A readable directory with a file, marked unreadable in `exUnreadable`. -/
def exReadableRoot : Dir := Dir.mk "root" ["a.ts"] [] true

/-- The same root with scanning failing (missing or permission-denied). -/
def exUnreadableRoot : Dir := Dir.mk "root" ["a.ts"] [] false

/-- A readable root whose eligible subdirectory `s` contains a file and an
unreadable subdirectory `u` that also contains a matching file. -/
def exPartial : Dir :=
  Dir.mk "root" []
    [Dir.mk "s" ["f1.ts"] [Dir.mk "u" ["f2.ts"] [] false] true] true

/-- A tree with one eligible directory holding one file, for the duplicate
counterexample. -/
def exDup : Dir := Dir.mk "root" [] [Dir.mk "a" ["f.ts"] [] true] true

/-- A tree whose eligible directory enumerates `b.py` before `x.ts`. -/
def exOrder : Dir := Dir.mk "root" [] [Dir.mk "a" ["b.py", "x.ts"] [] true] true

/-- A tree with directories `src/ai` and `src/ai-legacy`, both with a file. -/
def exLiteral : Dir :=
  Dir.mk "root" []
    [Dir.mk "src" []
      [Dir.mk "ai" ["a.ts"] [] true, Dir.mk "ai-legacy" ["b.ts"] [] true] true] true

/-- A root directory named like an ignored directory, with an eligible
subdirectory. -/
def exIgnoredName : Dir :=
  Dir.mk "node_modules" [] [Dir.mk "a" ["f.ts"] [] true] true

/-! ### Basic facts about the traversal -/

/-- Nested induction principle for directory trees: to prove a property of
every tree it suffices to prove it for a node assuming it for every
subdirectory. -/
theorem Dir.ind (P : Dir → Prop)
    (h : ∀ n fs ds r, (∀ c ∈ ds, P c) → P (Dir.mk n fs ds r)) : ∀ d, P d
  | .mk n fs ds r => h n fs ds r (fun c hc => Dir.ind P h c)
termination_by d => sizeOf d
decreasing_by
  simp only [Dir.mk.sizeOf_spec]
  have := List.sizeOf_lt_of_mem hc
  omega

theorem allReadableList_mem {ds : List Dir} (h : allReadableList ds = true) :
    ∀ c ∈ ds, allReadable c = true := by
  induction ds with
  | nil => intro c hc; cases hc
  | cons d rest ih =>
    rw [allReadableList, Bool.and_eq_true] at h
    intro c hc
    rcases List.mem_cons.mp hc with hc | hc
    · exact hc ▸ h.1
    · exact ih h.2 c hc

theorem allReadable_readable {d : Dir} (h : allReadable d = true) :
    d.readable = true := by
  cases d with
  | mk n fs ds r =>
    rw [allReadable, Bool.and_eq_true] at h
    exact h.1

theorem allReadable_sub {d c : Dir} (h : allReadable d = true) (hc : c ∈ d.dirs) :
    allReadable c = true := by
  cases d with
  | mk n fs ds r =>
    rw [allReadable, Bool.and_eq_true] at h
    exact allReadableList_mem h.2 c hc

theorem walkFrom_mk_true (comps : List String) (n : String) (fs : List String)
    (ds : List Dir) :
    walkFrom comps (Dir.mk n fs ds true) = (comps, fs) :: walkSubdirs comps ds := rfl

theorem walkFrom_mk_false (comps : List String) (n : String) (fs : List String)
    (ds : List Dir) : walkFrom comps (Dir.mk n fs ds false) = [] := rfl

theorem walkSubdirs_nil (comps : List String) : walkSubdirs comps [] = [] := rfl

theorem walkSubdirs_cons (comps : List String) (c : Dir) (rest : List Dir) :
    walkSubdirs comps (c :: rest) =
      (if IGNORE_DIRS.contains c.name then [] else walkFrom (comps ++ [c.name]) c)
        ++ walkSubdirs comps rest := rfl

/-- Membership in the walks of a list of subdirectories, assuming the
characterization for each subdirectory. -/
theorem mem_walkSubdirs_of {ds : List Dir}
    (ih : ∀ c ∈ ds, ∀ comps q fs, ((q, fs) ∈ walkFrom comps c ↔
      ∃ rest sub, q = comps ++ rest ∧ WalkReach c rest sub ∧ fs = Dir.files sub)) :
    ∀ comps q fs, ((q, fs) ∈ walkSubdirs comps ds ↔
      ∃ c ∈ ds, IGNORE_DIRS.contains c.name = false ∧
        ∃ rest sub, q = comps ++ c.name :: rest ∧ WalkReach c rest sub ∧
          fs = Dir.files sub) := by
  induction ds with
  | nil =>
    intro comps q fs
    rw [walkSubdirs_nil]
    simp
  | cons c rest ihl =>
    intro comps q fs
    rw [walkSubdirs_cons, List.mem_append]
    constructor
    · rintro (hm | hm)
      · by_cases hign : IGNORE_DIRS.contains c.name
        · rw [if_pos hign] at hm; cases hm
        · rw [if_neg hign] at hm
          rcases (ih c (List.mem_cons_self c rest) _ _ _).mp hm with
            ⟨r', sub, hq, hwr, hfs⟩
          refine ⟨c, List.mem_cons_self c rest, by simpa using hign, r', sub, ?_, hwr, hfs⟩
          rw [hq]; simp
      · rcases (ihl (fun d hd => ih d (List.mem_cons_of_mem c hd)) comps q fs).mp hm
          with ⟨d, hd, hign, r', sub, hq, hwr, hfs⟩
        exact ⟨d, List.mem_cons_of_mem c hd, hign, r', sub, hq, hwr, hfs⟩
    · rintro ⟨d, hd, hign, r', sub, hq, hwr, hfs⟩
      rcases List.mem_cons.mp hd with hd | hd
      · subst hd
        left
        rw [if_neg (by simp only [hign]; exact Bool.false_ne_true)]
        refine (ih d (List.mem_cons_self d rest) _ _ _).mpr ⟨r', sub, ?_, hwr, hfs⟩
        rw [hq]; simp
      · right
        exact (ihl (fun d' hd' => ih d' (List.mem_cons_of_mem c hd')) comps q fs).mpr
          ⟨d, hd, hign, r', sub, hq, hwr, hfs⟩

/-- Membership in the pruned walk: the yielded entries are exactly the
`WalkReach`-visited directories, with their component path appended to the
start components and their file list. -/
theorem mem_walkFrom (d : Dir) :
    ∀ comps q fs, ((q, fs) ∈ walkFrom comps d ↔
      ∃ rest sub, q = comps ++ rest ∧ WalkReach d rest sub ∧ fs = Dir.files sub) := by
  induction d using Dir.ind with
  | h n fs0 ds r ih =>
    intro comps q fs
    cases r with
    | false =>
      rw [walkFrom_mk_false]
      constructor
      · intro hm; cases hm
      · rintro ⟨rest, sub, hq, hwr, hfs⟩
        cases hwr with
        | here hrd => cases hrd
        | child hrd _ _ _ => cases hrd
    | true =>
      rw [walkFrom_mk_true, List.mem_cons]
      constructor
      · rintro (hm | hm)
        · injection hm with hq hfs
          exact ⟨[], Dir.mk n fs0 ds true, by simp [hq], WalkReach.here rfl, hfs⟩
        · rcases (mem_walkSubdirs_of ih comps q fs).mp hm with
            ⟨c, hc, hign, rest, sub, hq, hwr, hfs⟩
          exact ⟨c.name :: rest, sub, hq, WalkReach.child rfl hc hign hwr, hfs⟩
      · rintro ⟨rest, sub, hq, hwr, hfs⟩
        cases hwr with
        | here hrd =>
          left
          simp only [List.append_nil] at hq
          rw [hq, hfs]
          rfl
        | child hrd hc hign hwr' =>
          right
          exact (mem_walkSubdirs_of ih comps q fs).mpr
            ⟨_, hc, hign, _, sub, hq, hwr', hfs⟩

/-- Membership in the collector's result: the selected paths are exactly the
renderings of a visited directory together with a directly contained file
name that matches some pattern and is not ignored. -/
theorem mem_collect_paths (base : Dir) (bp : String) (incl pats : List String)
    (p : String) :
    p ∈ collect_paths base bp incl pats ↔
      ∃ rest sub filename, WalkReach base rest sub ∧ filename ∈ Dir.files sub ∧
        dirIncluded incl (relOf rest) = true ∧
        (∃ pat ∈ pats, fnmatch filename pat = true) ∧
        IGNORE_FILES.contains filename = false ∧
        p = pathJoin (dirPathOf bp rest) filename := by
  unfold collect_paths
  rw [List.mem_flatMap]
  constructor
  · rintro ⟨e, he, hp⟩
    obtain ⟨q, fs⟩ := e
    rcases (mem_walkFrom base [] q fs).mp he with ⟨rest, sub, hq, hwr, hfs⟩
    simp only [List.nil_append] at hq
    subst hq
    subst hfs
    by_cases hinc : dirIncluded incl (relOf q) = true
    · rw [if_pos hinc, List.mem_flatMap] at hp
      obtain ⟨pat, hpat, hp⟩ := hp
      rw [List.mem_flatMap] at hp
      obtain ⟨filename, hfn, hp⟩ := hp
      rw [fnmatchFilter, List.mem_filter] at hfn
      by_cases hig : IGNORE_FILES.contains filename = true
      · rw [if_pos hig] at hp; cases hp
      · rw [if_neg hig] at hp
        exact ⟨q, sub, filename, hwr, hfn.1, hinc, ⟨pat, hpat, hfn.2⟩,
          by simpa using hig, List.mem_singleton.mp hp⟩
    · rw [if_neg hinc] at hp; cases hp
  · rintro ⟨rest, sub, filename, hwr, hfile, hinc, ⟨pat, hpat, hmatch⟩, hig, hp⟩
    refine ⟨(rest, Dir.files sub),
      (mem_walkFrom base [] rest (Dir.files sub)).mpr
        ⟨rest, sub, (List.nil_append rest).symm, hwr, rfl⟩, ?_⟩
    rw [if_pos hinc, List.mem_flatMap]
    refine ⟨pat, hpat, ?_⟩
    rw [List.mem_flatMap]
    refine ⟨filename, List.mem_filter.mpr ⟨hfile, hmatch⟩, ?_⟩
    rw [if_neg (by rw [hig]; exact Bool.false_ne_true)]
    exact hp ▸ List.mem_singleton_self _

/-- A pruned-walk visit yields plain containment plus the no-ignored-component
condition. -/
theorem reaches_of_walkReach {d : Dir} {rest : List String} {sub : Dir}
    (h : WalkReach d rest sub) :
    Reaches d rest sub ∧ ∀ c ∈ rest, IGNORE_DIRS.contains c = false := by
  induction h with
  | here _ => exact ⟨Reaches.refl _, by simp⟩
  | child hrd hc hign hwr ih =>
    refine ⟨Reaches.step hc ih.1, ?_⟩
    intro x hx
    rcases List.mem_cons.mp hx with hx | hx
    · exact hx ▸ hign
    · exact ih.2 x hx

/-- On an all-readable tree, plain containment along non-ignored components
is visited by the pruned walk. -/
theorem walkReach_of_reaches {d : Dir} {rest : List String} {sub : Dir}
    (h : Reaches d rest sub) :
    allReadable d = true → (∀ c ∈ rest, IGNORE_DIRS.contains c = false) →
      WalkReach d rest sub := by
  induction h with
  | refl d =>
    intro hr _
    exact WalkReach.here (allReadable_readable hr)
  | step hc hre ih =>
    intro hr hig
    exact WalkReach.child (allReadable_readable hr) hc
      (hig _ (List.mem_cons_self _ _))
      (ih (allReadable_sub hr hc) (fun x hx => hig x (List.mem_cons_of_mem _ hx)))

/-! ### The claims -/

/-- Claim C1: on a readable tree, a file path appears in the result of
`collect_paths` if and only if there is a file location in the tree rendering
to it such that (a) the containing directory's path relative to the root
starts with one of the included prefixes, (b) the file name matches at least
one pattern, (c) the file name is not in the ignore-file set, and (d) no
ancestor directory component strictly below the root is in the
ignore-directory set. -/
theorem claim_c1 (base : Dir) (bp : String) (incl pats : List String) (p : String)
    (hr : allReadable base = true) :
    p ∈ collect_paths base bp incl pats ↔
      ∃ comps sub filename,
        Reaches base comps sub ∧
        filename ∈ Dir.files sub ∧
        dirIncluded incl (relOf comps) = true ∧
        (∃ pat ∈ pats, fnmatch filename pat = true) ∧
        IGNORE_FILES.contains filename = false ∧
        (∀ c ∈ comps, IGNORE_DIRS.contains c = false) ∧
        p = pathJoin (dirPathOf bp comps) filename := by
  rw [mem_collect_paths]
  constructor
  · rintro ⟨rest, sub, filename, hwr, h2, h3, h4, h5, h6⟩
    obtain ⟨hre, hig⟩ := reaches_of_walkReach hwr
    exact ⟨rest, sub, filename, hre, h2, h3, h4, h5, hig, h6⟩
  · rintro ⟨comps, sub, filename, hre, h2, h3, h4, h5, hig, h6⟩
    exact ⟨comps, sub, filename, walkReach_of_reaches hre hr hig, h2, h3, h4, h5, h6⟩

/-- Witness for claim C1 at a concrete readable tree. -/
theorem claim_c1_witness :
    "repo/a/f.ts" ∈ collect_paths exSmall "repo" ["a"] ["*.ts"] :=
  (claim_c1 exSmall "repo" ["a"] ["*.ts"] "repo/a/f.ts" (by decide)).mpr
    ⟨["a"], Dir.mk "a" ["f.ts"] [] true, "f.ts",
      Reaches.step (c := Dir.mk "a" ["f.ts"] [] true)
        (List.mem_singleton_self _) (Reaches.refl _),
      List.mem_singleton_self _, by decide, ⟨"*.ts", List.mem_singleton_self _,
        by decide⟩, by decide, by decide, by decide⟩

theorem walkSubdirs_append (comps : List String) (l1 l2 : List Dir) :
    walkSubdirs comps (l1 ++ l2) = walkSubdirs comps l1 ++ walkSubdirs comps l2 := by
  induction l1 with
  | nil => rw [walkSubdirs_nil, List.nil_append, List.nil_append]
  | cons c rest ih =>
    rw [List.cons_append, walkSubdirs_cons, walkSubdirs_cons, ih, List.append_assoc]

/-- Claim C2 counterexample: `os.walk` reports scandir failures to its
`onerror` callback, left at the default `None` by `collect_paths`, so an
unreadable (or missing) root yields the empty result instead of an error —
while the same tree with a readable root yields a file — and an unreadable
subdirectory encountered mid-scan is silently skipped, producing a partial
result (`f1.ts` collected, the unreadable `u` subtree dropped) rather than
aborting. -/
theorem claim_c2_counterexample :
    collect_paths exUnreadableRoot "r" ["."] ["*.ts"] = [] ∧
    collect_paths exReadableRoot "r" ["."] ["*.ts"] = ["r/a.ts"] ∧
    collect_paths exPartial "r" ["s"] ["*.ts"] = ["r/s/f1.ts"] := by
  exact ⟨by decide, by decide, by decide⟩

/-- Claim C2 amended: with the default `onerror=None`, a root that cannot be
scanned produces the empty result (no error is raised), and an unreadable
subdirectory anywhere in the tree is skipped while the rest of the scan
continues, as if the subdirectory were absent. -/
theorem claim_c2_amended :
    (∀ (n : String) (fs : List String) (ds : List Dir) (bp : String)
        (incl pats : List String),
      collect_paths (Dir.mk n fs ds false) bp incl pats = []) ∧
    (∀ (n m : String) (fs g : List String) (pre post e : List Dir) (bp : String)
        (incl pats : List String),
      collect_paths (Dir.mk n fs (pre ++ Dir.mk m g e false :: post) true) bp incl pats
        = collect_paths (Dir.mk n fs (pre ++ post) true) bp incl pats) := by
  constructor
  · intro n fs ds bp incl pats
    unfold collect_paths
    rw [walkFrom_mk_false]
    rfl
  · intro n m fs g pre post e bp incl pats
    unfold collect_paths
    rw [walkFrom_mk_true, walkFrom_mk_true, walkSubdirs_append, walkSubdirs_append,
      walkSubdirs_cons, walkFrom_mk_false, ite_self, List.nil_append]

/-- Claim C3: the collector is monotone in the included-prefix list — every
path of the logic pass also appears in the combined pass, whose prefix list
extends the logic one. -/
theorem claim_c3 (base : Dir) (bp p : String)
    (h : p ∈ collect_paths base bp LOGIC_DIRS LOGIC_PATTERNS) :
    p ∈ collect_paths base bp (LOGIC_DIRS ++ STYLE_DIRS) LOGIC_PATTERNS := by
  rw [mem_collect_paths] at h ⊢
  obtain ⟨rest, sub, filename, hwr, h2, h3, h4, h5, h6⟩ := h
  refine ⟨rest, sub, filename, hwr, h2, ?_, h4, h5, h6⟩
  rw [dirIncluded, List.any_eq_true] at h3 ⊢
  obtain ⟨d, hd, hsw⟩ := h3
  exact ⟨d, List.mem_append_left _ hd, hsw⟩

/-- Witness for claim C3 at a concrete tree with a logic file. -/
theorem claim_c3_witness :
    "repo/src/ai/a.ts" ∈
      collect_paths exLogic "repo" (LOGIC_DIRS ++ STYLE_DIRS) LOGIC_PATTERNS :=
  claim_c3 exLogic "repo" "repo/src/ai/a.ts" (by decide)

/-- Claim C6: the eligibility test is a plain string-prefix test, not
path-segment-aware — any extension of an included prefix, segment boundary or
not, is eligible; concretely, with prefix `src/ai` the collector picks up
files both under `src/ai` and under `src/ai-legacy`. -/
theorem claim_c6 :
    (∀ (d s : String) (incl : List String), d ∈ incl →
      dirIncluded incl (d ++ s) = true) ∧
    collect_paths exLiteral "r" ["src/ai"] ["*.ts"]
      = ["r/src/ai/a.ts", "r/src/ai-legacy/b.ts"] := by
  constructor
  · intro d s incl hd
    rw [dirIncluded, List.any_eq_true]
    refine ⟨d, hd, ?_⟩
    unfold strStartsWith
    rw [List.isPrefixOf_iff_prefix, String.data_append]
    exact List.prefix_append _ _
  · decide

/-- Witness for claim C6: a directory whose relative path extends the prefix
across a segment boundary is eligible. -/
theorem claim_c6_witness : dirIncluded ["src/ai"] ("src/ai" ++ "-legacy") = true :=
  claim_c6.1 "src/ai" "-legacy" ["src/ai"] (List.mem_singleton_self _)

/-- Claim C7: an empty included-prefix list or an empty pattern list each
yields the empty result (shown for every tree, readable or not). -/
theorem claim_c7 (base : Dir) (bp : String) (incl pats : List String) :
    collect_paths base bp [] pats = [] ∧ collect_paths base bp incl [] = [] := by
  constructor
  · unfold collect_paths
    rw [List.flatMap_eq_nil_iff]
    intro e _
    simp [dirIncluded]
  · unfold collect_paths
    rw [List.flatMap_eq_nil_iff]
    intro e _
    simp

/-- Claim C9: files directly in the scan root are never collected for the
configured prefix lists — the root's relative path is `"."`, which starts
with none of the configured prefixes, so the root's own file list is
irrelevant to the result. -/
theorem claim_c9 (n : String) (fs : List String) (ds : List Dir) (r : Bool)
    (bp : String) (pats incl : List String)
    (h : incl = LOGIC_DIRS ∨ incl = LOGIC_DIRS ++ STYLE_DIRS) :
    collect_paths (Dir.mk n fs ds r) bp incl pats
      = collect_paths (Dir.mk n [] ds r) bp incl pats := by
  have hdot : dirIncluded incl (relOf []) = false := by
    rcases h with h | h <;> subst h <;> decide
  cases r with
  | false =>
    unfold collect_paths
    rw [walkFrom_mk_false, walkFrom_mk_false]
  | true =>
    unfold collect_paths
    rw [walkFrom_mk_true, walkFrom_mk_true, List.flatMap_cons, List.flatMap_cons]
    simp [hdot]

/-- Witness for claim C9: a matching root-level file does not change the
logic-pass result. -/
theorem claim_c9_witness :
    collect_paths (Dir.mk "root" ["x.ts"] [] true) "r" LOGIC_DIRS ["*.ts"]
      = collect_paths (Dir.mk "root" [] [] true) "r" LOGIC_DIRS ["*.ts"] :=
  claim_c9 "root" ["x.ts"] [] true "r" ["*.ts"] LOGIC_DIRS (Or.inl rfl)

/-- Claim C10: ignore-directory pruning applies only to subdirectories met
during the walk, never to the scan root itself — the result does not depend
on the root's own name at all, and a root named like an ignored directory is
still scanned. -/
theorem claim_c10 :
    (∀ (n n' : String) (fs : List String) (ds : List Dir) (r : Bool) (bp : String)
        (incl pats : List String),
      collect_paths (Dir.mk n fs ds r) bp incl pats
        = collect_paths (Dir.mk n' fs ds r) bp incl pats) ∧
    collect_paths exIgnoredName "r" ["a"] ["*.ts"] = ["r/a/f.ts"] := by
  constructor
  · intro n n' fs ds r bp incl pats
    rfl
  · decide

theorem splitChar_cons (sep c : Char) (rest : List Char) :
    splitChar sep (c :: rest) =
      if c = sep then [] :: splitChar sep rest
      else (c :: (splitChar sep rest).headD []) :: (splitChar sep rest).tail := rfl

theorem splitChar_append_sep (sep : Char) (xs ys : List Char) (h : sep ∉ xs) :
    splitChar sep (xs ++ sep :: ys) = xs :: splitChar sep ys := by
  induction xs with
  | nil =>
    rw [List.nil_append, splitChar_cons, if_pos rfl]
  | cons x xs ih =>
    have hx : x ≠ sep := fun hx => h (hx ▸ List.mem_cons_self x xs)
    have hxs : sep ∉ xs := fun hm => h (List.mem_cons_of_mem x hm)
    rw [List.cons_append, splitChar_cons, ih hxs, if_neg hx]
    rfl

/-- Splitting the written file content at the line separator recovers exactly
the written paths (plus the empty segment after the final separator), provided
no path contains the separator itself. -/
theorem splitChar_writeLines (ps : List String) (h : ∀ p ∈ ps, '\n' ∉ p.data) :
    splitChar '\n' (writeLines ps).data = ps.map String.data ++ [[]] := by
  induction ps with
  | nil => rfl
  | cons p rest ih =>
    rw [writeLines]
    have hd : (p ++ os_linesep ++ writeLines rest).data
        = p.data ++ '\n' :: (writeLines rest).data := by
      rw [String.data_append, String.data_append]
      simp [os_linesep]
    rw [hd, splitChar_append_sep _ _ _ (h p (List.mem_cons_self p rest)),
      ih (fun q hq => h q (List.mem_cons_of_mem p hq)), List.map_cons, List.cons_append]

/-- Claim C8: the driver writes the logic list to `trace/logic_files.txt` and
the combined list to `trace/logic_style_files.txt` under the scan root; each
file holds exactly one collected path per line in sequence order (splitting
the final content at the newline separator recovers the collected sequence),
the content is the complete file content (mode `"w"`, prior content
replaced), an empty result gives an empty (zero-line) file, and the run still
prints both confirmation lines. -/
theorem claim_c8 (tree : Dir) (repo : String)
    (hn : ∀ p ∈ collect_paths tree repo LOGIC_DIRS LOGIC_PATTERNS ++
            collect_paths tree repo (LOGIC_DIRS ++ STYLE_DIRS) LOGIC_PATTERNS,
          '\n' ∉ p.data) :
    (main_run tree repo).logicPath
        = pathJoin (pathJoin repo "trace") "logic_files.txt" ∧
    (main_run tree repo).combinedPath
        = pathJoin (pathJoin repo "trace") "logic_style_files.txt" ∧
    splitChar '\n' (main_run tree repo).logicContent.data
        = (collect_paths tree repo LOGIC_DIRS LOGIC_PATTERNS).map String.data
            ++ [[]] ∧
    splitChar '\n' (main_run tree repo).combinedContent.data
        = (collect_paths tree repo (LOGIC_DIRS ++ STYLE_DIRS) LOGIC_PATTERNS).map
            String.data ++ [[]] ∧
    (collect_paths tree repo LOGIC_DIRS LOGIC_PATTERNS = [] →
      (main_run tree repo).logicContent = "") ∧
    (main_run tree repo).stdoutLines
        = ["Logic file list saved to: "
              ++ pathJoin (pathJoin repo "trace") "logic_files.txt",
           "Logic+Style file list saved to: "
              ++ pathJoin (pathJoin repo "trace") "logic_style_files.txt"] := by
  refine ⟨rfl, rfl, ?_, ?_, ?_, rfl⟩
  · exact splitChar_writeLines _ (fun p hp => hn p (List.mem_append_left _ hp))
  · exact splitChar_writeLines _ (fun p hp => hn p (List.mem_append_right _ hp))
  · intro h
    show writeLines (collect_paths tree repo LOGIC_DIRS LOGIC_PATTERNS) = ""
    rw [h]
    rfl

/-- Witness for claim C8 at a concrete tree. -/
theorem claim_c8_witness :
    splitChar '\n' (main_run exLogic "repo").logicContent.data
      = (collect_paths exLogic "repo" LOGIC_DIRS LOGIC_PATTERNS).map String.data
          ++ [[]] :=
  (claim_c8 exLogic "repo" (by decide)).2.2.1

/-! ### Order of the result sequence (claim C5) -/

theorem enumFrom_cons_eq {α : Type _} (n : Nat) (a : α) (l : List α) :
    List.enumFrom n (a :: l) = (n, a) :: List.enumFrom (n + 1) l := rfl

theorem enum_eq_enumFrom {α : Type _} (l : List α) : l.enum = List.enumFrom 0 l := rfl

theorem mem_enum_getElem {α : Type _} {i : Nat} {x : α} {l : List α}
    (h : (i, x) ∈ l.enum) : l[i]? = some x := by
  rw [enum_eq_enumFrom] at h
  obtain ⟨-, h2, h3⟩ := List.mem_enumFrom h
  simp only [Nat.zero_add] at h2
  simp only [Nat.sub_zero] at h3
  rw [List.getElem?_eq_getElem h2, h3]

/-- Mapping away the tags of an index-carrying flat map yields the plain flat
map, provided this holds chunkwise. -/
theorem map_snd_enumFlat {α β γ : Type _} (F : Nat → α → List β) (g : β → γ)
    (G : α → List γ) (h : ∀ i a, (F i a).map g = G a) :
    ∀ (n : Nat) (l : List α),
      ((List.enumFrom n l).flatMap (fun p => F p.1 p.2)).map g = l.flatMap G := by
  intro n l
  induction l generalizing n with
  | nil => rfl
  | cons a l ih =>
    rw [enumFrom_cons_eq, List.flatMap_cons, List.flatMap_cons, List.map_append,
      ih (n + 1)]
    show (F n a).map g ++ _ = _
    rw [h]

theorem mem_enumFlat_key_ge {α β : Type _} (key : β → Nat) (F : Nat → α → List β)
    (hkey : ∀ i a x, x ∈ F i a → key x = i) :
    ∀ (n : Nat) (l : List α) (y : β),
      y ∈ (List.enumFrom n l).flatMap (fun p => F p.1 p.2) → n ≤ key y := by
  intro n l
  induction l generalizing n with
  | nil => intro y hy; cases hy
  | cons a l ih =>
    intro y hy
    rw [enumFrom_cons_eq, List.flatMap_cons, List.mem_append] at hy
    rcases hy with hy | hy
    · exact (hkey n a y hy).ge
    · exact Nat.le_of_succ_le (ih (n + 1) y hy)

/-- Pairwise ordering of an index-carrying flat map: the keyed index strictly
increases across chunks, and within a chunk (where the key is constant) the
given relation holds. -/
theorem pairwise_enumFlat {α β : Type _} (key : β → Nat) (R : β → β → Prop)
    (F : Nat → α → List β)
    (hkey : ∀ i a x, x ∈ F i a → key x = i)
    (hR : ∀ i a, List.Pairwise R (F i a)) :
    ∀ (n : Nat) (l : List α),
      List.Pairwise (fun x y => key x < key y ∨ (key x = key y ∧ R x y))
        ((List.enumFrom n l).flatMap (fun p => F p.1 p.2)) := by
  intro n l
  induction l generalizing n with
  | nil => exact List.Pairwise.nil
  | cons a l ih =>
    rw [enumFrom_cons_eq, List.flatMap_cons, List.pairwise_append]
    refine ⟨?_, ih (n + 1), ?_⟩
    · refine List.Pairwise.imp_of_mem ?_ (hR n a)
      intro x y hx hy hr
      exact Or.inr ⟨(hkey n a x hx).trans (hkey n a y hy).symm, hr⟩
    · intro x hx y hy
      left
      rw [hkey n a x hx]
      exact Nat.lt_of_succ_le (mem_enumFlat_key_ge key F hkey (n + 1) l y hy)

theorem mem_tagFileChunk {bp : String} {comps : List String} {di pi : Nat}
    {fe : Nat × String} {x : (Nat × Nat × Nat) × String}
    (hx : x ∈ tagFileChunk bp comps di pi fe) :
    x = ((di, pi, fe.1), pathJoin (dirPathOf bp comps) fe.2) ∧
      IGNORE_FILES.contains fe.2 = false := by
  unfold tagFileChunk at hx
  by_cases hig : IGNORE_FILES.contains fe.2 = true
  · rw [if_pos hig] at hx; cases hx
  · rw [if_neg hig] at hx
    exact ⟨List.mem_singleton.mp hx, by simpa using hig⟩

theorem mem_tagPatChunk {bp : String} {comps files : List String} {di : Nat}
    {pe : Nat × String} {x : (Nat × Nat × Nat) × String}
    (hx : x ∈ tagPatChunk bp comps files di pe) :
    ∃ fe ∈ (fnmatchFilter files pe.2).enum,
      x = ((di, pe.1, fe.1), pathJoin (dirPathOf bp comps) fe.2) ∧
        IGNORE_FILES.contains fe.2 = false := by
  unfold tagPatChunk at hx
  rw [List.mem_flatMap] at hx
  obtain ⟨fe, hfe, hx⟩ := hx
  exact ⟨fe, hfe, mem_tagFileChunk hx⟩

theorem mem_tagDirChunk {bp : String} {incl pats : List String}
    {de : Nat × (List String × List String)} {x : (Nat × Nat × Nat) × String}
    (hx : x ∈ tagDirChunk bp incl pats de) :
    dirIncluded incl (relOf de.2.1) = true ∧
      ∃ pe ∈ pats.enum, ∃ fe ∈ (fnmatchFilter de.2.2 pe.2).enum,
        x = ((de.1, pe.1, fe.1), pathJoin (dirPathOf bp de.2.1) fe.2) ∧
          IGNORE_FILES.contains fe.2 = false := by
  unfold tagDirChunk at hx
  by_cases hinc : dirIncluded incl (relOf de.2.1) = true
  · rw [if_pos hinc, List.mem_flatMap] at hx
    obtain ⟨pe, hpe, hx⟩ := hx
    obtain ⟨fe, hfe, hx⟩ := mem_tagPatChunk hx
    exact ⟨hinc, pe, hpe, fe, hfe, hx⟩
  · rw [if_neg hinc] at hx; cases hx

theorem collect_paths_eq_chunks (base : Dir) (bp : String) (incl pats : List String) :
    collect_paths base bp incl pats
      = (walkFrom [] base).flatMap (collectDirChunk bp incl pats) := rfl

theorem tagFileChunk_map_snd (bp : String) (comps : List String) (di pi : Nat)
    (fe : Nat × String) :
    (tagFileChunk bp comps di pi fe).map Prod.snd = collectFileChunk bp comps fe.2 := by
  unfold tagFileChunk collectFileChunk
  by_cases hig : IGNORE_FILES.contains fe.2 = true
  · rw [if_pos hig, if_pos hig]; rfl
  · rw [if_neg hig, if_neg hig]; rfl

theorem tagPatChunk_map_snd (bp : String) (comps files : List String) (di : Nat)
    (pe : Nat × String) :
    (tagPatChunk bp comps files di pe).map Prod.snd
      = collectPatChunk bp comps files pe.2 := by
  unfold tagPatChunk collectPatChunk
  rw [enum_eq_enumFrom]
  exact map_snd_enumFlat _ _ _
    (fun fi fn => tagFileChunk_map_snd bp comps di pe.1 (fi, fn)) 0 _

theorem tagDirChunk_map_snd (bp : String) (incl pats : List String)
    (de : Nat × (List String × List String)) :
    (tagDirChunk bp incl pats de).map Prod.snd = collectDirChunk bp incl pats de.2 := by
  unfold tagDirChunk collectDirChunk
  by_cases hinc : dirIncluded incl (relOf de.2.1) = true
  · rw [if_pos hinc, if_pos hinc, enum_eq_enumFrom]
    exact map_snd_enumFlat _ _ _
      (fun pi pat => tagPatChunk_map_snd bp de.2.1 de.2.2 de.1 (pi, pat)) 0 _
  · rw [if_neg hinc, if_neg hinc]; rfl

theorem collectTagged_map_snd (base : Dir) (bp : String) (incl pats : List String) :
    (collectTagged base bp incl pats).map Prod.snd = collect_paths base bp incl pats := by
  rw [collect_paths_eq_chunks]
  unfold collectTagged
  rw [enum_eq_enumFrom]
  exact map_snd_enumFlat _ _ _ (fun di e => tagDirChunk_map_snd bp incl pats (di, e)) 0 _

theorem tagPatChunk_pairwise (bp : String) (comps files : List String) (di : Nat)
    (pe : Nat × String) :
    List.Pairwise (fun x y => x.1.2.2 < y.1.2.2 ∨ (x.1.2.2 = y.1.2.2 ∧ False))
      (tagPatChunk bp comps files di pe) := by
  unfold tagPatChunk
  rw [enum_eq_enumFrom]
  refine pairwise_enumFlat (fun x => x.1.2.2) (fun _ _ => False)
    (fun fi fn => tagFileChunk bp comps di pe.1 (fi, fn)) ?_ ?_ 0 _
  · intro i a x hx
    exact congrArg (fun t => t.1.2.2) (mem_tagFileChunk hx).1
  · intro i a
    show List.Pairwise (fun _ _ => False) (tagFileChunk bp comps di pe.1 (i, a))
    unfold tagFileChunk
    split
    · exact List.Pairwise.nil
    · simp

theorem tagDirChunk_pairwise (bp : String) (incl pats : List String)
    (de : Nat × (List String × List String)) :
    List.Pairwise (fun x y => x.1.2.1 < y.1.2.1 ∨ (x.1.2.1 = y.1.2.1 ∧
        (x.1.2.2 < y.1.2.2 ∨ (x.1.2.2 = y.1.2.2 ∧ False))))
      (tagDirChunk bp incl pats de) := by
  unfold tagDirChunk
  by_cases hinc : dirIncluded incl (relOf de.2.1) = true
  · rw [if_pos hinc, enum_eq_enumFrom]
    refine pairwise_enumFlat (fun x => x.1.2.1) _
      (fun pi pat => tagPatChunk bp de.2.1 de.2.2 de.1 (pi, pat)) ?_ ?_ 0 _
    · intro i a x hx
      obtain ⟨fe, -, hx, -⟩ := mem_tagPatChunk hx
      exact congrArg (fun t => t.1.2.1) hx
    · intro i a
      exact tagPatChunk_pairwise bp de.2.1 de.2.2 de.1 (i, a)
  · rw [if_neg hinc]; exact List.Pairwise.nil

theorem collectTagged_pairwise (base : Dir) (bp : String) (incl pats : List String) :
    List.Pairwise (fun x y => tagLt x.1 y.1) (collectTagged base bp incl pats) := by
  unfold collectTagged
  rw [enum_eq_enumFrom]
  have h := pairwise_enumFlat (fun x => x.1.1)
    (fun x y => x.1.2.1 < y.1.2.1 ∨ (x.1.2.1 = y.1.2.1 ∧
      (x.1.2.2 < y.1.2.2 ∨ (x.1.2.2 = y.1.2.2 ∧ False))))
    (fun di e => tagDirChunk bp incl pats (di, e))
    (fun i e x hx => by
      obtain ⟨-, pe, -, fe, -, hx, -⟩ := mem_tagDirChunk hx
      exact congrArg (fun t => t.1.1) hx)
    (fun i e => tagDirChunk_pairwise bp incl pats (i, e)) 0 (walkFrom [] base)
  refine h.imp ?_
  intro a b hab
  unfold tagLt
  rcases hab with h1 | ⟨h1, h2 | ⟨h2, h3 | ⟨h3, hf⟩⟩⟩
  · exact Or.inl h1
  · exact Or.inr ⟨h1, Or.inl h2⟩
  · exact Or.inr ⟨h1, Or.inr ⟨h2, h3⟩⟩
  · exact hf.elim

theorem collectTagged_grounded (base : Dir) (bp : String) (incl pats : List String) :
    ∀ t ∈ collectTagged base bp incl pats,
      ∃ e pat filename,
        (walkFrom [] base)[t.1.1]? = some e ∧
        pats[t.1.2.1]? = some pat ∧
        (fnmatchFilter e.2 pat)[t.1.2.2]? = some filename ∧
        dirIncluded incl (relOf e.1) = true ∧
        IGNORE_FILES.contains filename = false ∧
        t.2 = pathJoin (dirPathOf bp e.1) filename := by
  intro t ht
  unfold collectTagged at ht
  rw [List.mem_flatMap] at ht
  obtain ⟨de, hde, ht⟩ := ht
  obtain ⟨hinc, pe, hpe, fe, hfe, heq, hig⟩ := mem_tagDirChunk ht
  obtain ⟨di, e⟩ := de
  obtain ⟨pi, pat⟩ := pe
  obtain ⟨fi, fn⟩ := fe
  subst heq
  exact ⟨e, pat, fn, mem_enum_getElem hde, mem_enum_getElem hpe,
    mem_enum_getElem hfe, hinc, hig, rfl⟩

/-- Claim C5 counterexample: with patterns `*.ts, *.py` and a directory whose
files enumerate as `b.py, x.ts`, the collector emits the `.ts` file first
(the outer loop is over patterns), so the within-directory order is not the
traversal's enumeration order (which the spec-order reference collector
`collectEnumOrder` follows). -/
theorem claim_c5_counterexample :
    collect_paths exOrder "r" ["a"] ["*.ts", "*.py"] = ["r/a/x.ts", "r/a/b.py"] ∧
    collectEnumOrder exOrder "r" ["a"] ["*.ts", "*.py"] = ["r/a/b.py", "r/a/x.ts"] ∧
    collect_paths exOrder "r" ["a"] ["*.ts", "*.py"]
      ≠ collectEnumOrder exOrder "r" ["a"] ["*.ts", "*.py"] :=
  ⟨by decide, by decide, by decide⟩

/-- Claim C5 amended: the result sequence is ordered by traversal position of
the directory first; within a single eligible directory the selected files
are grouped by pattern in pattern-list order, and within one pattern they
follow the traversal's enumeration order of the files.  Formally: dropping
the tags of `collectTagged` gives exactly `collect_paths`, the (directory
index, pattern index, file index) tags are strictly increasing
lexicographically along the sequence, and every tag indexes the walk entry,
the pattern, and the file that produced its path. -/
theorem claim_c5_amended (base : Dir) (bp : String) (incl pats : List String) :
    (collectTagged base bp incl pats).map Prod.snd = collect_paths base bp incl pats ∧
    List.Pairwise (fun x y => tagLt x.1 y.1) (collectTagged base bp incl pats) ∧
    (∀ t ∈ collectTagged base bp incl pats,
      ∃ e pat filename,
        (walkFrom [] base)[t.1.1]? = some e ∧
        pats[t.1.2.1]? = some pat ∧
        (fnmatchFilter e.2 pat)[t.1.2.2]? = some filename ∧
        dirIncluded incl (relOf e.1) = true ∧
        IGNORE_FILES.contains filename = false ∧
        t.2 = pathJoin (dirPathOf bp e.1) filename) :=
  ⟨collectTagged_map_snd base bp incl pats, collectTagged_pairwise base bp incl pats,
    collectTagged_grounded base bp incl pats⟩

/-! ### Injectivity of path rendering (for claim C4)

On a well-formed tree (nonempty, separator-free names) under a normalized
base path, the rendered path determines the directory components and the
file name. -/

theorem goodSeg_props {c : String} (h : goodSeg c = true) :
    c.data ≠ [] ∧ '/' ∉ c.data := by
  rw [goodSeg, Bool.and_eq_true] at h
  obtain ⟨h1, h2⟩ := h
  constructor
  · intro hn
    rw [hn] at h1
    exact absurd h1 (by decide)
  · intro hm
    rw [Bool.not_eq_true'] at h2
    have he : List.elem '/' c.data = true := List.elem_iff.mpr hm
    rw [show List.elem '/' c.data = c.data.contains '/' from rfl, h2] at he
    exact Bool.false_ne_true he

theorem goodBase_props {s : String} (h : goodBase s = true) :
    s.data ≠ [] ∧ strEndsWith s "/" = false := by
  rw [goodBase, Bool.and_eq_true] at h
  obtain ⟨h1, h2⟩ := h
  constructor
  · intro hn
    rw [hn] at h1
    exact absurd h1 (by decide)
  · rw [Bool.not_eq_true'] at h2
    exact h2

theorem strStartsWith_slash_false {c : String} (h : goodSeg c = true) :
    strStartsWith c "/" = false := by
  obtain ⟨hn, hm⟩ := goodSeg_props h
  rw [strStartsWith]
  cases hc : c.data with
  | nil => exact absurd hc hn
  | cons x xs =>
    have hx : ('/' == x) = false := by
      rw [beq_eq_false_iff_ne]
      intro he
      exact hm (he ▸ hc ▸ List.mem_cons_self x xs)
    show (('/' == x) && List.isPrefixOf [] xs) = false
    rw [hx]
    rfl

theorem ends_slash_iff {s : String} : strEndsWith s "/" = true ↔ ['/'] <:+ s.data := by
  rw [strEndsWith]
  exact List.isSuffixOf_iff_suffix

theorem getLast?_append_right {α : Type _} {l l' : List α} (h : l' ≠ []) :
    (l ++ l').getLast? = l'.getLast? := by
  rw [List.getLast?_append]
  rcases hc : l'.getLast? with - | y
  · exact absurd (List.getLast?_eq_none_iff.mp hc) h
  · rfl

theorem pathJoin_good {bp c : String} (hbp : goodBase bp = true)
    (hc : goodSeg c = true) :
    (pathJoin bp c).data = bp.data ++ '/' :: c.data ∧
      goodBase (pathJoin bp c) = true := by
  obtain ⟨hbn, hbe⟩ := goodBase_props hbp
  have hcs := strStartsWith_slash_false hc
  obtain ⟨hcn, hcm⟩ := goodSeg_props hc
  have hjoin : pathJoin bp c = bp ++ "/" ++ c := by
    rw [pathJoin, if_neg (by rw [hcs]; exact Bool.false_ne_true), if_neg ?_]
    rw [Bool.or_eq_true]
    rintro (he | he)
    · rw [decide_eq_true_eq] at he
      exact hbn (he ▸ rfl)
    · exact absurd he (by rw [hbe]; exact Bool.false_ne_true)
  have hdata : (pathJoin bp c).data = bp.data ++ '/' :: c.data := by
    rw [hjoin, String.data_append, String.data_append, List.append_assoc]
    rfl
  refine ⟨hdata, ?_⟩
  rw [goodBase, Bool.and_eq_true]
  constructor
  · rw [Bool.not_eq_true']
    rw [show (pathJoin bp c).data.isEmpty = ((bp.data ++ '/' :: c.data).isEmpty) from by rw [hdata]]
    rcases bp.data with - | ⟨y, ys⟩
    · rfl
    · rfl
  · rw [Bool.not_eq_true']
    by_cases he : strEndsWith (pathJoin bp c) "/" = true
    · exfalso
      rw [ends_slash_iff, hdata] at he
      obtain ⟨a, ha⟩ := he
      have h1 : (bp.data ++ '/' :: c.data).getLast? = some '/' := by
        rw [← ha, getLast?_append_right (by intro h; cases h)]
        rfl
      have h2 : (bp.data ++ '/' :: c.data).getLast? = c.data.getLast? := by
        rw [show bp.data ++ '/' :: c.data = (bp.data ++ ['/']) ++ c.data from by
          rw [List.append_assoc]; rfl]
        exact getLast?_append_right hcn
      rw [h2] at h1
      have h3 : '/' ∈ c.data := by
        obtain ⟨hne, hx⟩ := List.mem_getLast?_eq_getLast (by rw [h1]; rfl)
        exact hx ▸ List.getLast_mem hne
      exact hcm h3
    · rw [Bool.not_eq_true] at he
      exact he

theorem dirPathOf_cons (bp c : String) (rest : List String) :
    dirPathOf bp (c :: rest) = dirPathOf (pathJoin bp c) rest := rfl

theorem dirPath_props : ∀ (comps : List String) (bp : String),
    goodBase bp = true → (∀ c ∈ comps, goodSeg c = true) →
    (dirPathOf bp comps).data
        = bp.data ++ (comps.map (fun c => '/' :: c.data)).flatten ∧
      goodBase (dirPathOf bp comps) = true := by
  intro comps
  induction comps with
  | nil =>
    intro bp hbp _
    exact ⟨by simp [dirPathOf], hbp⟩
  | cons c rest ih =>
    intro bp hbp hall
    have hc := hall c (List.mem_cons_self c rest)
    obtain ⟨hjd, hjg⟩ := pathJoin_good hbp hc
    obtain ⟨hd, hg⟩ :=
      ih (pathJoin bp c) hjg (fun x hx => hall x (List.mem_cons_of_mem c hx))
    rw [dirPathOf_cons]
    refine ⟨?_, hg⟩
    rw [hd, hjd, List.map_cons, List.flatten_cons, List.append_assoc]

theorem splitChar_ne_nil (sep : Char) (l : List Char) : splitChar sep l ≠ [] := by
  cases l with
  | nil => intro h; cases h
  | cons c rest =>
    rw [splitChar_cons]
    split
    · intro h; cases h
    · intro h; cases h

theorem splitChar_eq_cons (sep : Char) (l : List Char) :
    splitChar sep l = (splitChar sep l).headD [] :: (splitChar sep l).tail := by
  rcases h : splitChar sep l with - | ⟨a, t⟩
  · exact absurd h (splitChar_ne_nil sep l)
  · rfl

theorem splitChar_append_no_sep (sep : Char) (xs l : List Char) (h : sep ∉ xs) :
    splitChar sep (xs ++ l)
      = (xs ++ (splitChar sep l).headD []) :: (splitChar sep l).tail := by
  induction xs with
  | nil =>
    rw [List.nil_append, List.nil_append]
    exact splitChar_eq_cons sep l
  | cons x xs ih =>
    have hx : x ≠ sep := fun he => h (he ▸ List.mem_cons_self x xs)
    have hxs : sep ∉ xs := fun hm => h (List.mem_cons_of_mem x hm)
    rw [List.cons_append, splitChar_cons, ih hxs, if_neg hx]
    rfl

theorem splitChar_no_sep (sep : Char) (xs : List Char) (h : sep ∉ xs) :
    splitChar sep xs = [xs] := by
  have hs := splitChar_append_no_sep sep xs [] h
  rw [List.append_nil] at hs
  rw [hs]
  simp [splitChar]

theorem split_render_tail : ∀ (comps : List String) (f : List Char),
    (∀ c ∈ comps, goodSeg c = true) → '/' ∉ f →
    splitChar '/' ((comps.map (fun c => '/' :: c.data)).flatten ++ '/' :: f)
      = [] :: comps.map String.data ++ [f] := by
  intro comps
  induction comps with
  | nil =>
    intro f _ hf
    rw [List.map_nil, List.flatten_nil, List.nil_append, splitChar_cons, if_pos rfl,
      splitChar_no_sep _ _ hf]
    rfl
  | cons c rest ih =>
    intro f hall hf
    have hc := hall c (List.mem_cons_self c rest)
    obtain ⟨hcn, hcm⟩ := goodSeg_props hc
    rw [List.map_cons, List.flatten_cons, List.cons_append, List.cons_append,
      splitChar_cons, if_pos rfl, List.append_assoc,
      splitChar_append_no_sep '/' c.data _ hcm,
      ih f (fun x hx => hall x (List.mem_cons_of_mem c hx)) hf]
    simp

theorem render_data {bp : String} {comps : List String} {f : String}
    (hbp : goodBase bp = true) (hcomps : ∀ c ∈ comps, goodSeg c = true)
    (hf : goodSeg f = true) :
    (pathJoin (dirPathOf bp comps) f).data
      = bp.data ++ ((comps.map (fun c => '/' :: c.data)).flatten ++ '/' :: f.data) := by
  obtain ⟨hd, hg⟩ := dirPath_props comps bp hbp hcomps
  obtain ⟨hjd, -⟩ := pathJoin_good hg hf
  rw [hjd, hd, List.append_assoc]

/-- The rendered path determines the directory components and the file name,
for well-formed segments under a normalized base. -/
theorem render_inj {bp : String} {comps₁ comps₂ : List String} {f₁ f₂ : String}
    (hbp : goodBase bp = true)
    (hc₁ : ∀ c ∈ comps₁, goodSeg c = true) (hc₂ : ∀ c ∈ comps₂, goodSeg c = true)
    (hf₁ : goodSeg f₁ = true) (hf₂ : goodSeg f₂ = true)
    (h : pathJoin (dirPathOf bp comps₁) f₁ = pathJoin (dirPathOf bp comps₂) f₂) :
    comps₁ = comps₂ ∧ f₁ = f₂ := by
  have hd := congrArg String.data h
  rw [render_data hbp hc₁ hf₁, render_data hbp hc₂ hf₂] at hd
  have hx := List.append_cancel_left hd
  have hs := congrArg (splitChar '/') hx
  rw [split_render_tail comps₁ f₁.data hc₁ (goodSeg_props hf₁).2,
    split_render_tail comps₂ f₂.data hc₂ (goodSeg_props hf₂).2] at hs
  injection hs with hhead htail
  rw [show (List.map String.data comps₁).append [f₁.data]
        = List.map String.data comps₁ ++ [f₁.data] from rfl,
    show (List.map String.data comps₂).append [f₂.data]
        = List.map String.data comps₂ ++ [f₂.data] from rfl,
    ← List.concat_eq_append, ← List.concat_eq_append, List.concat_inj] at htail
  obtain ⟨hm, hf⟩ := htail
  exact ⟨List.map_injective_iff.mpr (fun a b hab => String.ext hab) hm, String.ext hf⟩

/-! ### Well-formedness propagation and distinctness of visited directories -/

theorem wfDir_mk_eq (n : String) (fs : List String) (ds : List Dir) (r : Bool) :
    wfDir (Dir.mk n fs ds r)
      = (nodupStr fs && fs.all goodSeg && nodupStr (ds.map Dir.name)
          && (ds.map Dir.name).all goodSeg && wfDirs ds) := rfl

theorem wfDirs_mem {ds : List Dir} (h : wfDirs ds = true) :
    ∀ c ∈ ds, wfDir c = true := by
  induction ds with
  | nil => intro c hc; cases hc
  | cons d rest ih =>
    rw [show wfDirs (d :: rest) = (wfDir d && wfDirs rest) from rfl,
      Bool.and_eq_true] at h
    intro c hc
    rcases List.mem_cons.mp hc with hc | hc
    · exact hc ▸ h.1
    · exact ih h.2 c hc

theorem contains_eq_false_iff {x : String} {xs : List String} :
    xs.contains x = false ↔ x ∉ xs := by
  rw [Bool.eq_false_iff]
  exact not_congr List.elem_iff

theorem nodupStr_iff : ∀ (l : List String), nodupStr l = true ↔ l.Nodup := by
  intro l
  induction l with
  | nil => simp [nodupStr]
  | cons x xs ih =>
    rw [show nodupStr (x :: xs) = (!xs.contains x && nodupStr xs) from rfl,
      Bool.and_eq_true, Bool.not_eq_true', List.nodup_cons, ← ih]
    exact and_congr contains_eq_false_iff Iff.rfl

theorem wfDir_sub {d c : Dir} (hwf : wfDir d = true) (hc : c ∈ d.dirs) :
    wfDir c = true ∧ goodSeg c.name = true := by
  cases d with
  | mk n fs ds r =>
    rw [wfDir_mk_eq] at hwf
    simp only [Bool.and_eq_true] at hwf
    obtain ⟨⟨⟨⟨h1, h2⟩, h3⟩, h4⟩, h5⟩ := hwf
    refine ⟨wfDirs_mem h5 c hc, ?_⟩
    exact List.all_eq_true.mp h4 c.name (List.mem_map.mpr ⟨c, hc, rfl⟩)

theorem walkReach_wf {d : Dir} {rest : List String} {sub : Dir}
    (h : WalkReach d rest sub) :
    wfDir d = true → (wfDir sub = true ∧ ∀ c ∈ rest, goodSeg c = true) := by
  induction h with
  | here _ =>
    intro hwf
    exact ⟨hwf, fun c hc => absurd hc (List.not_mem_nil c)⟩
  | child hrd hc hign hwr ih =>
    intro hwf
    obtain ⟨hcwf, hcn⟩ := wfDir_sub hwf hc
    obtain ⟨hsub, hrest⟩ := ih hcwf
    refine ⟨hsub, ?_⟩
    intro x hx
    rcases List.mem_cons.mp hx with hx | hx
    · exact hx ▸ hcn
    · exact hrest x hx

theorem wfDir_files {d : Dir} (h : wfDir d = true) :
    (Dir.files d).Nodup ∧ ∀ f ∈ Dir.files d, goodSeg f = true := by
  cases d with
  | mk n fs ds r =>
    rw [wfDir_mk_eq] at h
    simp only [Bool.and_eq_true] at h
    obtain ⟨⟨⟨⟨h1, h2⟩, h3⟩, h4⟩, h5⟩ := h
    exact ⟨(nodupStr_iff fs).mp h1, fun f hf => List.all_eq_true.mp h2 f hf⟩

theorem walkSubdirs_fst_nodup : ∀ (ds : List Dir),
    (∀ c ∈ ds, wfDir c = true → ∀ comps',
      ((walkFrom comps' c).map Prod.fst).Nodup) →
    nodupStr (ds.map Dir.name) = true → wfDirs ds = true →
    ∀ comps, ((walkSubdirs comps ds).map Prod.fst).Nodup := by
  intro ds
  induction ds with
  | nil =>
    intro _ _ _ comps
    rw [walkSubdirs_nil]
    exact List.Pairwise.nil
  | cons c rest ihl =>
    intro ih hnames hwfs comps
    rw [show (c :: rest).map Dir.name = c.name :: rest.map Dir.name from rfl,
      show nodupStr (c.name :: rest.map Dir.name)
        = (!(rest.map Dir.name).contains c.name && nodupStr (rest.map Dir.name))
        from rfl,
      Bool.and_eq_true, Bool.not_eq_true'] at hnames
    obtain ⟨hn1, hn2⟩ := hnames
    rw [show wfDirs (c :: rest) = (wfDir c && wfDirs rest) from rfl,
      Bool.and_eq_true] at hwfs
    rw [walkSubdirs_cons, List.map_append, List.nodup_append]
    refine ⟨?_, ihl (fun c' hc' => ih c' (List.mem_cons_of_mem _ hc')) hn2 hwfs.2 comps,
      ?_⟩
    · by_cases hign : IGNORE_DIRS.contains c.name = true
      · rw [if_pos hign, List.map_nil]
        exact List.Pairwise.nil
      · rw [if_neg hign]
        exact ih c (List.mem_cons_self c rest) hwfs.1 (comps ++ [c.name])
    · intro a ha ha'
      by_cases hign : IGNORE_DIRS.contains c.name = true
      · rw [if_pos hign, List.map_nil] at ha
        cases ha
      · rw [if_neg hign] at ha
        rw [List.mem_map] at ha ha'
        obtain ⟨e, he, hfst⟩ := ha
        obtain ⟨e', he', hfst'⟩ := ha'
        obtain ⟨q, fs⟩ := e
        obtain ⟨q', fs'⟩ := e'
        obtain ⟨r1, sub1, hq1, -, -⟩ := (mem_walkFrom c _ q fs).mp he
        obtain ⟨c', hc', hign', r2, sub2, hq2, -, -⟩ :=
          (mem_walkSubdirs_of (fun d _ => mem_walkFrom d) comps q' fs').mp he'
        have hqq : q = q' := by
          show (q, fs).1 = (q', fs').1
          rw [hfst, hfst']
        rw [hq1, hq2, List.append_assoc] at hqq
        have := List.append_cancel_left hqq
        rw [List.singleton_append] at this
        injection this with hname htaileq
        have : c'.name ∈ rest.map Dir.name := List.mem_map.mpr ⟨c', hc', rfl⟩
        rw [← hname] at this
        exact absurd (List.elem_iff.mpr this)
          (by rw [show List.elem c.name (rest.map Dir.name)
                = (rest.map Dir.name).contains c.name from rfl, hn1]
              exact Bool.false_ne_true)

/-- On a well-formed tree, the component paths of the visited directories are
pairwise distinct. -/
theorem walk_comps_nodup : ∀ (d : Dir), wfDir d = true →
    ∀ comps, ((walkFrom comps d).map Prod.fst).Nodup := by
  intro d
  induction d using Dir.ind with
  | h n fs0 ds r ih =>
    intro hwf comps
    cases r with
    | false =>
      rw [walkFrom_mk_false, List.map_nil]
      exact List.Pairwise.nil
    | true =>
      rw [walkFrom_mk_true, List.map_cons, List.nodup_cons]
      rw [wfDir_mk_eq] at hwf
      simp only [Bool.and_eq_true] at hwf
      obtain ⟨⟨⟨⟨h1, h2⟩, h3⟩, h4⟩, h5⟩ := hwf
      constructor
      · intro hm
        rw [List.mem_map] at hm
        obtain ⟨e, he, hfst⟩ := hm
        obtain ⟨q2, fs2⟩ := e
        obtain ⟨c, hc, hign, rest, sub, hq, -, -⟩ :=
          (mem_walkSubdirs_of (fun c _ => mem_walkFrom c) comps q2 fs2).mp he
        have hq2c : q2 = comps := hfst
        rw [hq] at hq2c
        have hlen := congrArg List.length hq2c
        simp only [List.length_append, List.length_cons] at hlen
        omega
      · exact walkSubdirs_fst_nodup ds ih h3 h5 comps

/-- A flat map is duplicate-free when the outer keys are duplicate-free, each
chunk is duplicate-free, and any element shared by two chunks forces their
keys equal. -/
theorem nodup_flatMap_inj {α β γ : Type _} (l : List α) (f : α → List β) (g : α → γ)
    (hg : (l.map g).Nodup) (hf : ∀ a ∈ l, (f a).Nodup)
    (hcross : ∀ a ∈ l, ∀ a' ∈ l, ∀ x, x ∈ f a → x ∈ f a' → g a = g a') :
    (l.flatMap f).Nodup := by
  induction l with
  | nil => exact List.Pairwise.nil
  | cons a l ih =>
    rw [List.flatMap_cons, List.nodup_append]
    rw [List.map_cons, List.nodup_cons] at hg
    refine ⟨hf a (List.mem_cons_self a l),
      ih hg.2 (fun a' ha' => hf a' (List.mem_cons_of_mem a ha'))
        (fun a' ha' a'' ha'' x hx hx' =>
          hcross a' (List.mem_cons_of_mem a ha') a'' (List.mem_cons_of_mem a ha'')
            x hx hx'), ?_⟩
    intro x hx hx'
    rw [List.mem_flatMap] at hx'
    obtain ⟨a', ha', hx'⟩ := hx'
    have heq := hcross a (List.mem_cons_self a l) a' (List.mem_cons_of_mem a ha')
      x hx hx'
    exact hg.1 (List.mem_map.mpr ⟨a', ha', heq.symm⟩)

theorem mem_collectFileChunk {bp : String} {comps : List String} {fn x : String}
    (hx : x ∈ collectFileChunk bp comps fn) :
    IGNORE_FILES.contains fn = false ∧ x = pathJoin (dirPathOf bp comps) fn := by
  unfold collectFileChunk at hx
  by_cases hig : IGNORE_FILES.contains fn = true
  · rw [if_pos hig] at hx; cases hx
  · rw [if_neg hig] at hx
    exact ⟨by simpa using hig, List.mem_singleton.mp hx⟩

theorem mem_collectPatChunk {bp : String} {comps files : List String} {pat x : String}
    (hx : x ∈ collectPatChunk bp comps files pat) :
    ∃ fn, fn ∈ files ∧ fnmatch fn pat = true ∧ IGNORE_FILES.contains fn = false ∧
      x = pathJoin (dirPathOf bp comps) fn := by
  unfold collectPatChunk at hx
  rw [List.mem_flatMap] at hx
  obtain ⟨fn, hfn, hx⟩ := hx
  rw [fnmatchFilter, List.mem_filter] at hfn
  obtain ⟨h1, h2⟩ := mem_collectFileChunk hx
  exact ⟨fn, hfn.1, hfn.2, h1, h2⟩

theorem mem_collectDirChunk {bp : String} {incl pats : List String}
    {e : List String × List String} {x : String}
    (hx : x ∈ collectDirChunk bp incl pats e) :
    ∃ pat ∈ pats, ∃ fn, fn ∈ e.2 ∧ fnmatch fn pat = true ∧
      IGNORE_FILES.contains fn = false ∧ x = pathJoin (dirPathOf bp e.1) fn := by
  unfold collectDirChunk at hx
  by_cases hinc : dirIncluded incl (relOf e.1) = true
  · rw [if_pos hinc, List.mem_flatMap] at hx
    obtain ⟨pat, hpat, hx⟩ := hx
    obtain ⟨fn, h1, h2, h3, h4⟩ := mem_collectPatChunk hx
    exact ⟨pat, hpat, fn, h1, h2, h3, h4⟩
  · rw [if_neg hinc] at hx; cases hx

/-- Claim C4 counterexample: the inner loops run per pattern, so a file whose
name matches two patterns of the list is appended once per matching pattern —
with patterns `*.ts` and `*` the single file `f.ts` appears twice. -/
theorem claim_c4_counterexample :
    (collect_paths exDup "r" ["a"] ["*.ts", "*"]).count "r/a/f.ts" = 2 := by decide

/-- Claim C4 amended: each distinct file path appears at most once in the
result provided no file name matches two distinct patterns of the list (which
holds for the configured `LOGIC_PATTERNS`); in general a file is emitted once
per matching pattern.  Stated for a well-formed tree (distinct, nonempty,
separator-free names) and a normalized base path, as a real filesystem and
`os.getcwd()` guarantee. -/
theorem claim_c4_amended (base : Dir) (bp : String) (incl pats : List String)
    (hwf : wfDir base = true) (hbp : goodBase bp = true)
    (hpnd : pats.Nodup)
    (hdisj : ∀ f p₁ p₂, p₁ ∈ pats → p₂ ∈ pats →
      fnmatch f p₁ = true → fnmatch f p₂ = true → p₁ = p₂) :
    (collect_paths base bp incl pats).Nodup := by
  rw [collect_paths_eq_chunks]
  have hent : ∀ e ∈ walkFrom [] base, (∀ c ∈ e.1, goodSeg c = true) ∧
      e.2.Nodup ∧ (∀ f ∈ e.2, goodSeg f = true) := by
    intro e he
    obtain ⟨q, fs⟩ := e
    obtain ⟨rest, sub, hq, hwr, hfs⟩ := (mem_walkFrom base [] q fs).mp he
    simp only [List.nil_append] at hq
    subst hq
    subst hfs
    obtain ⟨hsubwf, hcomps⟩ := walkReach_wf hwr hwf
    obtain ⟨hnd, hgood⟩ := wfDir_files hsubwf
    exact ⟨hcomps, hnd, hgood⟩
  refine nodup_flatMap_inj _ _ Prod.fst (walk_comps_nodup base hwf []) ?_ ?_
  · intro e he
    obtain ⟨hcomps, hfnd, hfgood⟩ := hent e he
    unfold collectDirChunk
    by_cases hinc : dirIncluded incl (relOf e.1) = true
    · rw [if_pos hinc]
      refine nodup_flatMap_inj pats _ id (by rw [List.map_id]; exact hpnd) ?_ ?_
      · intro pat hpat
        unfold collectPatChunk
        refine nodup_flatMap_inj _ _ id
          (by rw [List.map_id]; exact List.Nodup.filter _ hfnd) ?_ ?_
        · intro fn hfn
          unfold collectFileChunk
          split
          · exact List.Pairwise.nil
          · simp
        · intro fn hfn fn' hfn' x hx hx'
          obtain ⟨-, hx⟩ := mem_collectFileChunk hx
          obtain ⟨-, hx'⟩ := mem_collectFileChunk hx'
          have hfn2 := List.mem_of_mem_filter hfn
          have hfn2' := List.mem_of_mem_filter hfn'
          exact (render_inj hbp hcomps hcomps (hfgood fn hfn2) (hfgood fn' hfn2')
            (hx.symm.trans hx')).2
      · intro pat hpat pat' hpat' x hx hx'
        obtain ⟨fn, hfn, hm, -, hxe⟩ := mem_collectPatChunk hx
        obtain ⟨fn', hfn', hm', -, hxe'⟩ := mem_collectPatChunk hx'
        have hff : fn = fn' :=
          (render_inj hbp hcomps hcomps (hfgood fn hfn) (hfgood fn' hfn')
            (hxe.symm.trans hxe')).2
        exact hdisj fn pat pat' hpat hpat' hm (hff ▸ hm')
    · rw [if_neg hinc]
      exact List.Pairwise.nil
  · intro e he e' he' x hx hx'
    obtain ⟨pat, hpat, fn, hfn, hm, hig, hxe⟩ := mem_collectDirChunk hx
    obtain ⟨pat', hpat', fn', hfn', hm', hig', hxe'⟩ := mem_collectDirChunk hx'
    obtain ⟨hcomps, -, hfgood⟩ := hent e he
    obtain ⟨hcomps', -, hfgood'⟩ := hent e' he'
    exact (render_inj hbp hcomps hcomps' (hfgood fn hfn) (hfgood' fn' hfn')
      (hxe.symm.trans hxe')).1

/-! ### Disjointness of the configured patterns (for the claim C4 witness) -/

theorem matchPat_nil (s : List Char) : matchPat [] s = s.isEmpty := rfl

theorem matchPat_star (ps : List Pat) (s : List Char) :
    matchPat (.star :: ps) s = s.tails.any (fun t => matchPat ps t) := rfl

theorem matchPat_lit_nil (c : Char) (ps : List Pat) :
    matchPat (.lit c :: ps) [] = false := rfl

theorem matchPat_lit_cons (c : Char) (ps : List Pat) (x : Char) (xs : List Char) :
    matchPat (.lit c :: ps) (x :: xs) = ((x == c) && matchPat ps xs) := rfl

theorem matchPat_lits : ∀ (cs s : List Char),
    (matchPat (cs.map Pat.lit) s = true ↔ s = cs) := by
  intro cs
  induction cs with
  | nil =>
    intro s
    rw [List.map_nil, matchPat_nil]
    exact List.isEmpty_iff
  | cons c cs ih =>
    intro s
    cases s with
    | nil =>
      rw [List.map_cons, matchPat_lit_nil]
      simp
    | cons x xs =>
      rw [List.map_cons, matchPat_lit_cons, Bool.and_eq_true, beq_iff_eq]
      constructor
      · rintro ⟨h1, h2⟩
        rw [h1, (ih xs).mp h2]
      · intro h
        injection h with h1 h2
        exact ⟨h1, (ih xs).mpr h2⟩

/-- A pattern of the form star-then-literals matches exactly the names ending
in those literal characters. -/
theorem matchPat_star_lits (cs s : List Char) :
    matchPat (Pat.star :: cs.map Pat.lit) s = true ↔ cs <:+ s := by
  rw [matchPat_star, List.any_eq_true]
  constructor
  · rintro ⟨t, ht, hm⟩
    rw [List.mem_tails] at ht
    rw [(matchPat_lits cs t).mp hm] at ht
    exact ht
  · intro h
    exact ⟨cs, (List.mem_tails cs s).mpr h, (matchPat_lits cs cs).mpr rfl⟩

theorem fnmatch_ts (f : String) :
    fnmatch f "*.ts" = true ↔ ['.', 't', 's'] <:+ f.data := by
  rw [show fnmatch f "*.ts"
      = matchPat (Pat.star :: List.map Pat.lit ['.', 't', 's']) f.data from rfl]
  exact matchPat_star_lits _ _

theorem fnmatch_tsx (f : String) :
    fnmatch f "*.tsx" = true ↔ ['.', 't', 's', 'x'] <:+ f.data := by
  rw [show fnmatch f "*.tsx"
      = matchPat (Pat.star :: List.map Pat.lit ['.', 't', 's', 'x']) f.data from rfl]
  exact matchPat_star_lits _ _

theorem fnmatch_js (f : String) :
    fnmatch f "*.js" = true ↔ ['.', 'j', 's'] <:+ f.data := by
  rw [show fnmatch f "*.js"
      = matchPat (Pat.star :: List.map Pat.lit ['.', 'j', 's']) f.data from rfl]
  exact matchPat_star_lits _ _

theorem fnmatch_py (f : String) :
    fnmatch f "*.py" = true ↔ ['.', 'p', 'y'] <:+ f.data := by
  rw [show fnmatch f "*.py"
      = matchPat (Pat.star :: List.map Pat.lit ['.', 'p', 'y']) f.data from rfl]
  exact matchPat_star_lits _ _

theorem suffix_eq_of_length_eq {α : Type _} {s1 s2 l : List α} (h1 : s1 <:+ l)
    (h2 : s2 <:+ l) (h : s1.length = s2.length) : s1 = s2 := by
  obtain ⟨a, ha⟩ := h1
  obtain ⟨b, hb⟩ := h2
  rw [← hb] at ha
  exact (List.append_inj' ha h).2

theorem suffix_getLast {α : Type _} {s l : List α} (h : s <:+ l) (hs : s ≠ []) :
    l.getLast? = s.getLast? := by
  obtain ⟨a, rfl⟩ := h
  exact getLast?_append_right hs

/-- No file name matches two distinct patterns of `LOGIC_PATTERNS`: the four
patterns demand four incompatible literal suffixes. -/
theorem logic_patterns_disjoint :
    ∀ (f p₁ p₂ : String), p₁ ∈ LOGIC_PATTERNS → p₂ ∈ LOGIC_PATTERNS →
      fnmatch f p₁ = true → fnmatch f p₂ = true → p₁ = p₂ := by
  intro f p₁ p₂ h₁ h₂ m₁ m₂
  have hmem : ∀ p ∈ LOGIC_PATTERNS,
      p = "*.ts" ∨ p = "*.tsx" ∨ p = "*.js" ∨ p = "*.py" := by
    intro p hp
    simpa [LOGIC_PATTERNS] using hp
  rcases hmem p₁ h₁ with rfl | rfl | rfl | rfl <;>
    rcases hmem p₂ h₂ with rfl | rfl | rfl | rfl
  · rfl
  · exact absurd ((suffix_getLast ((fnmatch_ts f).mp m₁) (by decide)).symm.trans
      (suffix_getLast ((fnmatch_tsx f).mp m₂) (by decide))) (by decide)
  · exact absurd (suffix_eq_of_length_eq ((fnmatch_ts f).mp m₁)
      ((fnmatch_js f).mp m₂) (by decide)) (by decide)
  · exact absurd ((suffix_getLast ((fnmatch_ts f).mp m₁) (by decide)).symm.trans
      (suffix_getLast ((fnmatch_py f).mp m₂) (by decide))) (by decide)
  · exact absurd ((suffix_getLast ((fnmatch_tsx f).mp m₁) (by decide)).symm.trans
      (suffix_getLast ((fnmatch_ts f).mp m₂) (by decide))) (by decide)
  · rfl
  · exact absurd ((suffix_getLast ((fnmatch_tsx f).mp m₁) (by decide)).symm.trans
      (suffix_getLast ((fnmatch_js f).mp m₂) (by decide))) (by decide)
  · exact absurd ((suffix_getLast ((fnmatch_tsx f).mp m₁) (by decide)).symm.trans
      (suffix_getLast ((fnmatch_py f).mp m₂) (by decide))) (by decide)
  · exact absurd (suffix_eq_of_length_eq ((fnmatch_js f).mp m₁)
      ((fnmatch_ts f).mp m₂) (by decide)) (by decide)
  · exact absurd ((suffix_getLast ((fnmatch_js f).mp m₁) (by decide)).symm.trans
      (suffix_getLast ((fnmatch_tsx f).mp m₂) (by decide))) (by decide)
  · rfl
  · exact absurd ((suffix_getLast ((fnmatch_js f).mp m₁) (by decide)).symm.trans
      (suffix_getLast ((fnmatch_py f).mp m₂) (by decide))) (by decide)
  · exact absurd ((suffix_getLast ((fnmatch_py f).mp m₁) (by decide)).symm.trans
      (suffix_getLast ((fnmatch_ts f).mp m₂) (by decide))) (by decide)
  · exact absurd ((suffix_getLast ((fnmatch_py f).mp m₁) (by decide)).symm.trans
      (suffix_getLast ((fnmatch_tsx f).mp m₂) (by decide))) (by decide)
  · exact absurd ((suffix_getLast ((fnmatch_py f).mp m₁) (by decide)).symm.trans
      (suffix_getLast ((fnmatch_js f).mp m₂) (by decide))) (by decide)
  · rfl

/-- Witness for claim C4 (amended) at a concrete tree with the configured
pattern list. -/
theorem claim_c4_witness :
    (collect_paths exLogic "repo" LOGIC_DIRS LOGIC_PATTERNS).Nodup :=
  claim_c4_amended exLogic "repo" LOGIC_DIRS LOGIC_PATTERNS (by decide) (by decide)
    (by decide) logic_patterns_disjoint

end TraceCode
